import Mathlib

/-!
Verification of the SAT-instance evaluator from `src/main.rs`.

The embedding follows the Rust source closely:

* `Literal`, `Operator`, `Clause`, `LiteralState`, `InstanceState`,
  `SatInstance` mirror the Rust structs.
* `Literal.cmp` mirrors `impl Ord for Literal` (name first, then `negated`,
  with `compare` on `String` being lexicographic, as Rust's `String::cmp`).
* `Clause.satisfied_by` mirrors `Clause::satisfied_by`: each clause literal is
  resolved to an `Option Bool` by first-match-by-name lookup in the state,
  the clause is unsatisfied when any resolution is `none`, and otherwise the
  resolved booleans are combined with the clause operator.
* `SatInstance.inspect` mirrors `SatInstance::inspect`: flatten the clauses'
  literals, sort them (Rust's `sort` is a stable sort by `Ord`; because the
  order below identifies literals that compare equal, any sorted permutation
  of the input is unique, so the structurally recursive insertion sort
  `sortLiterals` computes exactly the same list), then `dedup_by` on
  `inverse_of` (adjacent-pairwise, keeping the first of each run).
* `SatInstance.satisfied_by` mirrors `SatInstance::satisfied_by`.
-/

structure Literal where
  negated : Bool
  name : String
deriving DecidableEq, Repr

def Literal.same_name_as (a b : Literal) : Bool :=
  a.name == b.name

def Literal.inverse_of (a b : Literal) : Bool :=
  a.same_name_as b && (a.negated != b.negated)

/-- `impl Ord for Literal`: compare names; when equal, compare `negated`
(`false < true`, so a non-negated literal sorts before a negated one). -/
def Literal.cmp (a b : Literal) : Ordering :=
  let ord := compare a.name b.name
  if ord = Ordering.eq then compare a.negated b.negated else ord

/-- The boolean "less or equal" induced by `Literal.cmp`; Rust's stable
`sort` sorts ascending with respect to it. -/
def Literal.le (a b : Literal) : Bool :=
  a.cmp b != Ordering.gt

inductive Operator where
  | OR
  | AND
deriving DecidableEq, Repr

structure Clause where
  operator : Operator
  literals : List Literal
deriving DecidableEq, Repr

structure LiteralState where
  literal : Literal
  value : Option Bool
deriving DecidableEq, Repr

structure InstanceState where
  states : List LiteralState
deriving DecidableEq, Repr

structure SatInstance where
  clauses : List Clause
deriving DecidableEq, Repr

/-- The literal-resolution step of `Clause::satisfied_by`: find the first
`LiteralState` whose literal has the same name as the clause literal, then
read its value through the clause literal's polarity. -/
def resolveLiteral (states : List LiteralState) (clause_literal : Literal) : Option Bool :=
  match states.find? (fun st => clause_literal.same_name_as st.literal) with
  | some st =>
    match st.value, clause_literal.negated with
    | some state_bool, true => some (!state_bool)
    | some state_bool, false => some state_bool
    | none, _ => none
  | none => none

/-- `Clause::satisfied_by`. -/
def Clause.satisfied_by (c : Clause) (state : InstanceState) : Bool :=
  let clause_literal_states := c.literals.map (resolveLiteral state.states)
  let needed_literals_set := clause_literal_states.all (fun v => v.isSome)
  if !needed_literals_set then
    false
  else
    match c.operator with
    | Operator.OR => clause_literal_states.any (fun v => v == some true)
    | Operator.AND => clause_literal_states.all (fun v => v == some true)

/-- Stable insertion into a sorted list, ascending with respect to
`Literal.le`. -/
def insertLiteral (a : Literal) : List Literal → List Literal
  | [] => [a]
  | b :: bs => if a.le b then a :: b :: bs else b :: insertLiteral a bs

/-- Insertion sort by `Literal.le`; behaviourally identical to Rust's
`Vec::sort` on `Literal` (see the header comment). -/
def sortLiterals : List Literal → List Literal
  | [] => []
  | a :: as => insertLiteral a (sortLiterals as)

/-- The loop of Rust's `Vec::dedup_by`: `r` is the previously retained
element; a next element `a` is dropped when `p a r` holds, otherwise it is
kept and becomes the new retained element. -/
def dedupByGo (p : Literal → Literal → Bool) (r : Literal) : List Literal → List Literal
  | [] => []
  | a :: as => if p a r then dedupByGo p r as else a :: dedupByGo p a as

/-- Rust's `Vec::dedup_by`. -/
def dedupBy (p : Literal → Literal → Bool) : List Literal → List Literal
  | [] => []
  | x :: xs => x :: dedupByGo p x xs

/-- `SatInstance::inspect`. -/
def SatInstance.inspect (i : SatInstance) : List Literal :=
  dedupBy Literal.inverse_of
    (sortLiterals (i.clauses.flatMap (fun c => c.literals)))

/-- `SatInstance::satisfied_by`. -/
def SatInstance.satisfied_by (i : SatInstance) (state : InstanceState) : Bool :=
  i.clauses.all (fun c => c.satisfied_by state)

/-! ### Helper lemmas about clause evaluation -/

theorem satisfied_by_false_of_resolve_none (c : Clause) (s : InstanceState) (l : Literal)
    (hl : l ∈ c.literals) (hres : resolveLiteral s.states l = none) :
    c.satisfied_by s = false := by
  have hneed : (c.literals.map (resolveLiteral s.states)).all (fun v => v.isSome) = false := by
    rw [List.all_eq_false]
    exact ⟨none, List.mem_map.mpr ⟨l, hl, hres⟩, by simp⟩
  simp [Clause.satisfied_by, hneed]

theorem satisfied_by_AND_false_of_resolve_false (c : Clause) (s : InstanceState) (l : Literal)
    (hop : c.operator = Operator.AND) (hl : l ∈ c.literals)
    (hres : resolveLiteral s.states l = some false) :
    c.satisfied_by s = false := by
  by_cases hneed : (c.literals.map (resolveLiteral s.states)).all (fun v => v.isSome) = true
  · have hall : (c.literals.map (resolveLiteral s.states)).all (fun v => v == some true) = false := by
      rw [List.all_eq_false]
      exact ⟨some false, List.mem_map.mpr ⟨l, hl, hres⟩, by simp⟩
    simp [Clause.satisfied_by, hop, hneed, hall]
  · have hneed' : (c.literals.map (resolveLiteral s.states)).all (fun v => v.isSome) = false :=
      eq_false_of_ne_true hneed
    simp [Clause.satisfied_by, hneed']

theorem list_any_map {α β : Type} (l : List α) (f : α → β) (p : β → Bool) :
    (l.map f).any p = l.any (fun a => p (f a)) := by
  induction l with
  | nil => rfl
  | cons a as ih => simp [ih]

theorem list_all_map {α β : Type} (l : List α) (f : α → β) (p : β → Bool) :
    (l.map f).all p = l.all (fun a => p (f a)) := by
  induction l with
  | nil => rfl
  | cons a as ih => simp [ih]

theorem resolveLiteral_eq (states : List LiteralState) (l : Literal)
    (st : LiteralState) (b : Bool)
    (hfind : states.find? (fun st => l.same_name_as st.literal) = some st)
    (hval : st.value = some b) :
    resolveLiteral states l = some (if l.negated then !b else b) := by
  cases hneg : l.negated <;> simp [resolveLiteral, hfind, hval, hneg]

/-! ### Claim theorems -/

/-- C1: if at least one literal of a clause has no same-name `LiteralState`
in the state, or its first same-name `LiteralState` has value `none`, then
`satisfied_by` returns `false`, regardless of the operator and of the other
literals' resolved values. -/
theorem unknown_literal_forces_unsatisfied (c : Clause) (s : InstanceState) (l : Literal)
    (hl : l ∈ c.literals)
    (h : s.states.find? (fun st => l.same_name_as st.literal) = none ∨
      ∃ st, s.states.find? (fun st => l.same_name_as st.literal) = some st ∧ st.value = none) :
    c.satisfied_by s = false := by
  apply satisfied_by_false_of_resolve_none c s l hl
  rcases h with hfind | ⟨st, hfind, hval⟩
  · simp [resolveLiteral, hfind]
  · simp [resolveLiteral, hfind, hval]

theorem unknown_literal_forces_unsatisfied_witness :
    Clause.satisfied_by ⟨Operator.OR, [⟨false, "a"⟩]⟩ ⟨[]⟩ = false :=
  unknown_literal_forces_unsatisfied ⟨Operator.OR, [⟨false, "a"⟩]⟩ ⟨[]⟩ ⟨false, "a"⟩
    (by decide) (Or.inl rfl)

/-- C2: an instance is satisfied iff every one of its clauses is satisfied
(unconditional instance-level conjunction); an instance with zero clauses is
satisfied by every state. -/
theorem instance_conjunction (i : SatInstance) (s : InstanceState) :
    (i.satisfied_by s = true ↔ ∀ c ∈ i.clauses, c.satisfied_by s = true) ∧
    (i.clauses = [] → i.satisfied_by s = true) := by
  constructor
  · simp [SatInstance.satisfied_by, List.all_eq_true]
  · intro h
    simp [SatInstance.satisfied_by, h]

theorem instance_conjunction_witness :
    SatInstance.satisfied_by ⟨[]⟩ ⟨[]⟩ = true :=
  (instance_conjunction ⟨[]⟩ ⟨[]⟩).2 rfl

/-- C3: when all literals of a clause resolve to a definite boolean, an OR
clause is satisfied iff some resolved truth is true and an AND clause is
satisfied iff all resolved truths are true; a zero-literal AND clause is
satisfied by every state, a zero-literal OR clause by none. -/
theorem clause_operator_semantics (c : Clause) (s : InstanceState)
    (h : ∀ l ∈ c.literals, (resolveLiteral s.states l).isSome = true) :
    (c.operator = Operator.OR →
      c.satisfied_by s = c.literals.any (fun l => resolveLiteral s.states l == some true)) ∧
    (c.operator = Operator.AND →
      c.satisfied_by s = c.literals.all (fun l => resolveLiteral s.states l == some true)) ∧
    (c.literals = [] → c.satisfied_by s = (c.operator == Operator.AND)) := by
  have hneed : (c.literals.map (resolveLiteral s.states)).all (fun v => v.isSome) = true := by
    rw [List.all_eq_true]
    intro v hv
    rcases List.mem_map.mp hv with ⟨l, hl, rfl⟩
    exact h l hl
  refine ⟨?_, ?_, ?_⟩
  · intro hop
    simp [Clause.satisfied_by, hneed, hop]
    rw [list_any_map]
  · intro hop
    simp [Clause.satisfied_by, hneed, hop]
    rw [list_all_map]
  · intro hlit
    cases hop : c.operator <;> simp [Clause.satisfied_by, hlit, hop]

theorem clause_operator_semantics_witness :
    Clause.satisfied_by ⟨Operator.AND, []⟩ ⟨[]⟩ = true := by
  have h := (clause_operator_semantics ⟨Operator.AND, []⟩ ⟨[]⟩ (by simp)).2.2 rfl
  simpa using h

/-- C4: a clause literal whose first same-name `LiteralState` carries
`some b` resolves to `b` when not negated and `!b` when negated; hence a
single-literal OR clause on `x` against the state `{x ↦ some v}` is
satisfied exactly when the literal's polarity applied to `v` is true. -/
theorem literal_resolution_polarity (states : List LiteralState) (l : Literal)
    (st : LiteralState) (b : Bool)
    (hfind : states.find? (fun st => l.same_name_as st.literal) = some st)
    (hval : st.value = some b) :
    (resolveLiteral states l = some (if l.negated then !b else b)) ∧
    ∀ (x : String) (neg v : Bool),
      Clause.satisfied_by ⟨Operator.OR, [⟨neg, x⟩]⟩ ⟨[⟨⟨false, x⟩, some v⟩]⟩ =
        (if neg then !v else v) := by
  refine ⟨resolveLiteral_eq states l st b hfind hval, ?_⟩
  intro x neg v
  have hx : (⟨neg, x⟩ : Literal).same_name_as ⟨false, x⟩ = true := by
    simp [Literal.same_name_as]
  cases neg <;> cases v <;>
    simp [Clause.satisfied_by, resolveLiteral, hx]

theorem literal_resolution_polarity_witness :
    (resolveLiteral [⟨⟨false, "x"⟩, some true⟩] ⟨false, "x"⟩ = some true) ∧
    (Clause.satisfied_by ⟨Operator.OR, [⟨true, "x"⟩]⟩ ⟨[⟨⟨false, "x"⟩, some true⟩]⟩ = false) := by
  have h := literal_resolution_polarity [⟨⟨false, "x"⟩, some true⟩] ⟨false, "x"⟩
    ⟨⟨false, "x"⟩, some true⟩ true (by decide) rfl
  exact ⟨h.1, h.2 "x" true true⟩

/-- Sanity check: the worked example of `main` — the instance
`(a OR b) AND (c AND NOT b)` — has `inspect` output `[a, b, c]` and is
satisfied by the assignment `a = true, b = false, c = true`. -/
theorem main_example_sanity :
    SatInstance.inspect ⟨[⟨Operator.OR, [⟨false, "a"⟩, ⟨false, "b"⟩]⟩,
        ⟨Operator.AND, [⟨false, "c"⟩, ⟨true, "b"⟩]⟩]⟩ =
      [⟨false, "a"⟩, ⟨false, "b"⟩, ⟨false, "c"⟩] ∧
    SatInstance.satisfied_by ⟨[⟨Operator.OR, [⟨false, "a"⟩, ⟨false, "b"⟩]⟩,
        ⟨Operator.AND, [⟨false, "c"⟩, ⟨true, "b"⟩]⟩]⟩
      ⟨[⟨⟨false, "a"⟩, some true⟩, ⟨⟨false, "b"⟩, some false⟩,
        ⟨⟨false, "c"⟩, some true⟩]⟩ = true := by
  constructor
  · decide
  · decide

/-- C6: the `LiteralState` used to resolve a clause literal is the first
entry of `states` (in sequence order) whose literal has the same name; any
later same-name entries are ignored and no conflict is reported, whatever
values they carry. -/
theorem resolution_first_match (pre : List LiteralState) (st : LiteralState)
    (post : List LiteralState) (l : Literal)
    (hpre : ∀ st' ∈ pre, l.same_name_as st'.literal = false)
    (hst : l.same_name_as st.literal = true) :
    resolveLiteral (pre ++ st :: post) l =
      (match st.value, l.negated with
       | some b, true => some (!b)
       | some b, false => some b
       | none, _ => none) := by
  have h1 : pre.find? (fun s' => l.same_name_as s'.literal) = none := by
    rw [List.find?_eq_none]
    intro x hx
    simp [hpre x hx]
  have hfind : (pre ++ st :: post).find? (fun s' => l.same_name_as s'.literal) = some st := by
    rw [List.find?_append, h1, Option.none_or]
    exact List.find?_cons_of_pos _ hst
  simp [resolveLiteral, hfind]

theorem resolution_first_match_witness :
    resolveLiteral [⟨⟨false, "a"⟩, some true⟩, ⟨⟨true, "a"⟩, some false⟩] ⟨false, "a"⟩ =
      some true := by
  have h := resolution_first_match [] ⟨⟨false, "a"⟩, some true⟩
    [⟨⟨true, "a"⟩, some false⟩] ⟨false, "a"⟩ (by simp) (by decide)
  simpa using h

/-- C8: `inspect` is deterministic — on structurally equal instances it
yields identical outputs. -/
theorem inspect_deterministic (i j : SatInstance) (h : i = j) :
    i.inspect = j.inspect :=
  congrArg SatInstance.inspect h

theorem inspect_deterministic_witness :
    SatInstance.inspect ⟨[⟨Operator.OR, [⟨false, "a"⟩]⟩]⟩ =
      SatInstance.inspect ⟨[⟨Operator.OR, [⟨false, "a"⟩]⟩]⟩ :=
  inspect_deterministic ⟨[⟨Operator.OR, [⟨false, "a"⟩]⟩]⟩ ⟨[⟨Operator.OR, [⟨false, "a"⟩]⟩]⟩ rfl

/-- C9: an AND clause whose literals contain a literal together with its
inverse (same name, opposite polarity) is never satisfied, whether the
variable's state is absent, unknown, or a definite boolean. -/
theorem and_clause_inverse_pair_unsatisfied (c : Clause) (s : InstanceState) (l₁ l₂ : Literal)
    (hop : c.operator = Operator.AND)
    (h₁ : l₁ ∈ c.literals) (h₂ : l₂ ∈ c.literals)
    (hinv : l₁.inverse_of l₂ = true) :
    c.satisfied_by s = false := by
  have hinv' : l₁.name = l₂.name ∧ l₁.negated ≠ l₂.negated := by
    simpa [Literal.inverse_of, Literal.same_name_as] using hinv
  obtain ⟨hname, hneg⟩ := hinv'
  cases hfind : s.states.find? (fun st => l₁.same_name_as st.literal) with
  | none =>
    apply satisfied_by_false_of_resolve_none c s l₁ h₁
    simp [resolveLiteral, hfind]
  | some st =>
    cases hval : st.value with
    | none =>
      apply satisfied_by_false_of_resolve_none c s l₁ h₁
      simp [resolveLiteral, hfind, hval]
    | some b =>
      have hfind₂ : s.states.find? (fun st => l₂.same_name_as st.literal) = some st := by
        have hpred : (fun st : LiteralState => l₂.same_name_as st.literal) =
            (fun st : LiteralState => l₁.same_name_as st.literal) := by
          funext st'
          simp [Literal.same_name_as, hname]
        rw [hpred]
        exact hfind
      have r₁ := resolveLiteral_eq s.states l₁ st b hfind hval
      have r₂ := resolveLiteral_eq s.states l₂ st b hfind₂ hval
      cases hn₁ : l₁.negated <;> cases hn₂ : l₂.negated <;> rw [hn₁] at r₁ <;> rw [hn₂] at r₂
      · exact absurd (hn₁.trans hn₂.symm) hneg
      · cases b with
        | false => exact satisfied_by_AND_false_of_resolve_false c s l₁ hop h₁ (by simpa using r₁)
        | true => exact satisfied_by_AND_false_of_resolve_false c s l₂ hop h₂ (by simpa using r₂)
      · cases b with
        | false => exact satisfied_by_AND_false_of_resolve_false c s l₂ hop h₂ (by simpa using r₂)
        | true => exact satisfied_by_AND_false_of_resolve_false c s l₁ hop h₁ (by simpa using r₁)
      · exact absurd (hn₁.trans hn₂.symm) hneg

theorem and_clause_inverse_pair_unsatisfied_witness :
    Clause.satisfied_by ⟨Operator.AND, [⟨false, "a"⟩, ⟨true, "a"⟩]⟩
      ⟨[⟨⟨false, "a"⟩, some true⟩]⟩ = false :=
  and_clause_inverse_pair_unsatisfied ⟨Operator.AND, [⟨false, "a"⟩, ⟨true, "a"⟩]⟩
    ⟨[⟨⟨false, "a"⟩, some true⟩]⟩ ⟨false, "a"⟩ ⟨true, "a"⟩ rfl
    (by decide) (by decide) (by decide)

/-- C10: appending state entries whose names do not occur among a clause's
literals does not change the clause's satisfaction value. -/
theorem clause_ignores_unrelated_state (c : Clause) (s : InstanceState)
    (extra : List LiteralState)
    (hex : ∀ st ∈ extra, ∀ l ∈ c.literals, l.same_name_as st.literal = false) :
    c.satisfied_by ⟨s.states ++ extra⟩ = c.satisfied_by s := by
  have hmap : c.literals.map (resolveLiteral (s.states ++ extra)) =
      c.literals.map (resolveLiteral s.states) := by
    apply List.map_congr_left
    intro l hl
    have hextra : extra.find? (fun st => l.same_name_as st.literal) = none := by
      rw [List.find?_eq_none]
      intro st hst
      simp [hex st hst l hl]
    simp [resolveLiteral, List.find?_append, hextra]
  simp only [Clause.satisfied_by]
  rw [hmap]

theorem clause_ignores_unrelated_state_witness :
    Clause.satisfied_by ⟨Operator.OR, [⟨false, "a"⟩]⟩
        ⟨[⟨⟨false, "a"⟩, some true⟩] ++ [⟨⟨false, "b"⟩, some false⟩]⟩ =
      Clause.satisfied_by ⟨Operator.OR, [⟨false, "a"⟩]⟩ ⟨[⟨⟨false, "a"⟩, some true⟩]⟩ :=
  clause_ignores_unrelated_state ⟨Operator.OR, [⟨false, "a"⟩]⟩ ⟨[⟨⟨false, "a"⟩, some true⟩]⟩
    [⟨⟨false, "b"⟩, some false⟩] (by decide)

/-! ### The literal order -/

theorem string_compare_eq_iff (s t : String) : compare s t = Ordering.eq ↔ s = t :=
  Batteries.BEqCmp.cmp_iff_eq

theorem string_compare_swap (s t : String) : (compare s t).swap = compare t s :=
  Batteries.OrientedCmp.symm s t

theorem bool_compare_swap (x y : Bool) : (compare x y).swap = compare y x := by
  cases x <;> cases y <;> rfl

theorem Literal.cmp_then (a b : Literal) :
    a.cmp b = (compare a.name b.name).then (compare a.negated b.negated) := by
  simp only [Literal.cmp]
  cases h : compare a.name b.name <;> simp [h, Ordering.then]

theorem Literal.cmp_swap (a b : Literal) : (a.cmp b).swap = b.cmp a := by
  rw [Literal.cmp_then, Literal.cmp_then, Ordering.swap_then,
    string_compare_swap, bool_compare_swap]

theorem Literal.cmp_eq_iff (a b : Literal) : a.cmp b = Ordering.eq ↔ a = b := by
  rw [Literal.cmp_then, Ordering.then_eq_eq, string_compare_eq_iff]
  cases a with
  | mk an aname =>
    cases b with
    | mk bn bname =>
      simp only [Literal.mk.injEq]
      constructor
      · rintro ⟨h1, h2⟩
        have hb : an = bn := by
          cases an <;> cases bn <;> first | rfl | exact absurd h2 (by decide)
        exact ⟨hb, h1⟩
      · rintro ⟨h1, h2⟩
        subst h1 h2
        exact ⟨rfl, by cases an <;> rfl⟩

theorem Literal.cmp_lt_trans (a b c : Literal)
    (hab : a.cmp b = Ordering.lt) (hbc : b.cmp c = Ordering.lt) :
    a.cmp c = Ordering.lt := by
  rw [Literal.cmp_then, Ordering.then_eq_lt] at hab hbc ⊢
  rcases hab with hab | ⟨hab, gab⟩
  · rcases hbc with hbc | ⟨hbc, gbc⟩
    · exact Or.inl (Batteries.TransCmp.lt_trans hab hbc)
    · have : b.name = c.name := (string_compare_eq_iff _ _).mp hbc
      rw [← this]
      exact Or.inl hab
  · have hname : a.name = b.name := (string_compare_eq_iff _ _).mp hab
    rcases hbc with hbc | ⟨hbc, gbc⟩
    · rw [hname]
      exact Or.inl hbc
    · have hname' : b.name = c.name := (string_compare_eq_iff _ _).mp hbc
      refine Or.inr ⟨(string_compare_eq_iff _ _).mpr (hname.trans hname'), ?_⟩
      cases ha : a.negated <;> cases hb : b.negated <;> cases hc : c.negated <;>
        rw [ha, hb] at gab <;> rw [hb, hc] at gbc <;> first
        | rfl
        | exact absurd gab (by decide)
        | exact absurd gbc (by decide)

theorem Literal.le_iff (a b : Literal) : a.le b = true ↔ a.cmp b ≠ Ordering.gt := by
  unfold Literal.le
  cases a.cmp b <;> decide

theorem Literal.le_of_not_le (a b : Literal) (h : ¬ a.le b = true) : b.le a = true := by
  rw [Literal.le_iff] at h
  rw [Literal.le_iff]
  rw [not_not] at h
  intro hba
  have := Literal.cmp_swap a b
  rw [h, hba] at this
  exact absurd this (by decide)

theorem Literal.le_refl (a : Literal) : a.le a = true := by
  rw [Literal.le_iff]
  intro h
  have : a.cmp a = Ordering.eq := (Literal.cmp_eq_iff a a).mpr rfl
  rw [this] at h
  exact absurd h (by decide)

theorem Literal.le_trans (a b c : Literal)
    (hab : a.le b = true) (hbc : b.le c = true) : a.le c = true := by
  rw [Literal.le_iff] at hab hbc ⊢
  intro hac
  cases h1 : a.cmp b with
  | gt => exact hab h1
  | eq =>
    have : a = b := (Literal.cmp_eq_iff a b).mp h1
    subst this
    exact hbc hac
  | lt =>
    cases h2 : b.cmp c with
    | gt => exact hbc h2
    | eq =>
      have : b = c := (Literal.cmp_eq_iff b c).mp h2
      subst this
      rw [h1] at hac
      exact absurd hac (by decide)
    | lt =>
      have := Literal.cmp_lt_trans a b c h1 h2
      rw [this] at hac
      exact absurd hac (by decide)

/-- C7: the literal comparison is a total order consistent with equality:
for different names it is the lexicographic order of the names, for equal
names the non-negated literal sorts before the negated one, `eq` holds
exactly for structurally equal literals, the strict order is transitive,
and `lt`/`gt` are each other's mirror images. -/
theorem literal_order_is_total_order :
    (∀ a b : Literal, a.name ≠ b.name → a.cmp b = compare a.name b.name) ∧
    (∀ a b : Literal, a.name = b.name → a.negated = false → b.negated = true →
      a.cmp b = Ordering.lt) ∧
    (∀ a b : Literal, a.cmp b = Ordering.eq ↔ a = b) ∧
    (∀ a b c : Literal, a.cmp b = Ordering.lt → b.cmp c = Ordering.lt →
      a.cmp c = Ordering.lt) ∧
    (∀ a b : Literal, a.cmp b = Ordering.lt ↔ b.cmp a = Ordering.gt) := by
  refine ⟨?_, ?_, Literal.cmp_eq_iff, Literal.cmp_lt_trans, ?_⟩
  · intro a b hne
    have hcne : compare a.name b.name ≠ Ordering.eq := fun h =>
      hne ((string_compare_eq_iff _ _).mp h)
    simp only [Literal.cmp]
    rw [if_neg hcne]
  · intro a b hname hna hnb
    have hceq : compare a.name b.name = Ordering.eq :=
      (string_compare_eq_iff _ _).mpr hname
    simp only [Literal.cmp]
    rw [if_pos hceq, hna, hnb]
    rfl
  · intro a b
    constructor
    · intro h
      have := Literal.cmp_swap a b
      rw [h] at this
      exact this.symm
    · intro h
      have := Literal.cmp_swap b a
      rw [h] at this
      exact this.symm

theorem literal_order_is_total_order_witness :
    Literal.cmp ⟨false, "a"⟩ ⟨true, "a"⟩ = Ordering.lt :=
  literal_order_is_total_order.2.1 ⟨false, "a"⟩ ⟨true, "a"⟩ rfl rfl rfl

/-! ### Sorting and deduplication lemmas for `inspect` -/

theorem insertLiteral_perm (a : Literal) (l : List Literal) :
    (insertLiteral a l).Perm (a :: l) := by
  induction l with
  | nil => exact List.Perm.refl _
  | cons b bs ih =>
    unfold insertLiteral
    by_cases h : a.le b = true
    · rw [if_pos h]
    · rw [if_neg h]
      exact (ih.cons b).trans (List.Perm.swap a b bs)

theorem mem_insertLiteral {x a : Literal} {l : List Literal} :
    x ∈ insertLiteral a l ↔ x = a ∨ x ∈ l := by
  rw [(insertLiteral_perm a l).mem_iff]
  simp

theorem insertLiteral_pairwise (a : Literal) (l : List Literal)
    (h : l.Pairwise (fun x y => x.le y = true)) :
    (insertLiteral a l).Pairwise (fun x y => x.le y = true) := by
  induction l with
  | nil => simp [insertLiteral]
  | cons b bs ih =>
    rw [List.pairwise_cons] at h
    obtain ⟨hb, hbs⟩ := h
    unfold insertLiteral
    by_cases hab : a.le b = true
    · rw [if_pos hab]
      rw [List.pairwise_cons]
      constructor
      · intro x hx
        rcases List.mem_cons.mp hx with rfl | hx'
        · exact hab
        · exact Literal.le_trans a b x hab (hb x hx')
      · rw [List.pairwise_cons]
        exact ⟨hb, hbs⟩
    · rw [if_neg hab]
      rw [List.pairwise_cons]
      constructor
      · intro x hx
        rcases mem_insertLiteral.mp hx with rfl | hx'
        · exact Literal.le_of_not_le x b hab
        · exact hb x hx'
      · exact ih hbs

theorem sortLiterals_perm (l : List Literal) : (sortLiterals l).Perm l := by
  induction l with
  | nil => exact List.Perm.refl _
  | cons a as ih => exact (insertLiteral_perm a (sortLiterals as)).trans (ih.cons a)

theorem sortLiterals_pairwise (l : List Literal) :
    (sortLiterals l).Pairwise (fun x y => x.le y = true) := by
  induction l with
  | nil => simp [sortLiterals]
  | cons a as ih => exact insertLiteral_pairwise a _ ih

theorem dedupByGo_sublist (p : Literal → Literal → Bool) (r : Literal) (l : List Literal) :
    (dedupByGo p r l).Sublist l := by
  induction l generalizing r with
  | nil => simp [dedupByGo]
  | cons a as ih =>
    unfold dedupByGo
    by_cases h : p a r = true
    · rw [if_pos h]
      exact (ih r).cons a
    · rw [if_neg h]
      exact (ih a).cons₂ a

theorem dedupBy_sublist (p : Literal → Literal → Bool) (l : List Literal) :
    (dedupBy p l).Sublist l := by
  cases l with
  | nil => simp [dedupBy]
  | cons x xs => exact (dedupByGo_sublist p x xs).cons₂ x

theorem inverse_of_name {a r : Literal} (h : a.inverse_of r = true) : a.name = r.name := by
  simp [Literal.inverse_of, Literal.same_name_as] at h
  exact h.1

theorem dedupByGo_name_covers (r : Literal) (l : List Literal) :
    ∀ a ∈ l, (∃ b ∈ dedupByGo Literal.inverse_of r l, b.name = a.name) ∨ a.name = r.name := by
  induction l generalizing r with
  | nil =>
    intro a ha
    cases ha
  | cons x xs ih =>
    intro a ha
    unfold dedupByGo
    by_cases h : x.inverse_of r = true
    · rw [if_pos h]
      rcases List.mem_cons.mp ha with rfl | ha'
      · exact Or.inr (inverse_of_name h)
      · exact ih r a ha'
    · rw [if_neg h]
      rcases List.mem_cons.mp ha with rfl | ha'
      · exact Or.inl ⟨a, List.mem_cons_self _ _, rfl⟩
      · rcases ih x a ha' with ⟨b, hb, hbn⟩ | hn
        · exact Or.inl ⟨b, List.mem_cons_of_mem _ hb, hbn⟩
        · exact Or.inl ⟨x, List.mem_cons_self _ _, hn.symm⟩

theorem dedupBy_name_covers (l : List Literal) :
    ∀ a ∈ l, ∃ b ∈ dedupBy Literal.inverse_of l, b.name = a.name := by
  cases l with
  | nil =>
    intro a ha
    cases ha
  | cons x xs =>
    intro a ha
    simp only [dedupBy]
    rcases List.mem_cons.mp ha with rfl | ha'
    · exact ⟨a, List.mem_cons_self _ _, rfl⟩
    · rcases dedupByGo_name_covers x xs a ha' with ⟨b, hb, hbn⟩ | hn
      · exact ⟨b, List.mem_cons_of_mem _ hb, hbn⟩
      · exact ⟨x, List.mem_cons_self _ _, hn.symm⟩

theorem Literal.name_sandwich (r a b : Literal)
    (h₁ : r.le a = true) (h₂ : a.le b = true) (h₃ : b.name = r.name) :
    a.name = r.name := by
  rw [Literal.le_iff] at h₁ h₂
  have n₁ : compare r.name a.name ≠ Ordering.gt := by
    intro hg
    apply h₁
    rw [Literal.cmp_then, hg]
    rfl
  have n₂ : compare a.name b.name ≠ Ordering.gt := by
    intro hg
    apply h₂
    rw [Literal.cmp_then, hg]
    rfl
  rw [h₃] at n₂
  have n₃ : compare a.name r.name ≠ Ordering.lt := by
    intro hl
    apply n₁
    have hs := string_compare_swap r.name a.name
    rw [hl] at hs
    cases hc : compare r.name a.name with
    | lt => rw [hc] at hs; exact absurd hs (by decide)
    | eq => rw [hc] at hs; exact absurd hs (by decide)
    | gt => rfl
  cases hc : compare a.name r.name with
  | lt => exact absurd hc n₃
  | gt => exact absurd hc n₂
  | eq => exact (string_compare_eq_iff _ _).mp hc

theorem dedupByGo_nodup_names (l : List Literal) : ∀ r : Literal,
    (r :: l).Pairwise (fun x y => x.le y = true) → (r :: l).Nodup →
    ((dedupByGo Literal.inverse_of r l).map Literal.name).Nodup ∧
    ∀ b ∈ dedupByGo Literal.inverse_of r l, b.name ≠ r.name := by
  induction l with
  | nil =>
    intro r _ _
    exact ⟨List.nodup_nil, fun b hb => absurd hb (List.not_mem_nil b)⟩
  | cons a as ih =>
    intro r hs hn
    rw [List.pairwise_cons] at hs
    obtain ⟨hr, hsa⟩ := hs
    rw [List.nodup_cons] at hn
    obtain ⟨hrn, hna⟩ := hn
    unfold dedupByGo
    by_cases h : a.inverse_of r = true
    · rw [if_pos h]
      apply ih r
      · rw [List.pairwise_cons]
        refine ⟨fun x hx => hr x (List.mem_cons_of_mem a hx), ?_⟩
        rw [List.pairwise_cons] at hsa
        exact hsa.2
      · rw [List.nodup_cons]
        refine ⟨fun hx => hrn (List.mem_cons_of_mem a hx), ?_⟩
        rw [List.nodup_cons] at hna
        exact hna.2
    · rw [if_neg h]
      obtain ⟨ihn, ihne⟩ := ih a hsa hna
      have haname : a.name ≠ r.name := by
        intro heq
        have hsame : a.same_name_as r = true := by
          simp [Literal.same_name_as, heq]
        have hpol : a.negated = r.negated := by
          by_contra hne
          apply h
          simp [Literal.inverse_of, hsame]
          exact hne
        apply hrn
        have har : a = r := by
          cases a
          cases r
          simp_all
        rw [har]
        exact List.mem_cons_self _ _
      constructor
      · rw [List.map_cons, List.nodup_cons]
        refine ⟨?_, ihn⟩
        intro hmem
        rcases List.mem_map.mp hmem with ⟨b, hb, hbn⟩
        exact ihne b hb hbn
      · intro b hb
        rcases List.mem_cons.mp hb with rfl | hb'
        · exact haname
        · intro hbr
          have hbas : b ∈ as := (dedupByGo_sublist _ a as).subset hb'
          have hra : r.le a = true := hr a (List.mem_cons_self _ _)
          have hab : a.le b = true := by
            rw [List.pairwise_cons] at hsa
            exact hsa.1 b hbas
          exact haname (Literal.name_sandwich r a b hra hab hbr)

theorem dedupBy_nodup_names (l : List Literal)
    (hs : l.Pairwise (fun x y => x.le y = true)) (hn : l.Nodup) :
    ((dedupBy Literal.inverse_of l).map Literal.name).Nodup := by
  cases l with
  | nil => simp [dedupBy]
  | cons x xs =>
    obtain ⟨ihn, ihne⟩ := dedupByGo_nodup_names xs x hs hn
    simp only [dedupBy, List.map_cons, List.nodup_cons]
    refine ⟨?_, ihn⟩
    intro hmem
    rcases List.mem_map.mp hmem with ⟨b, hb, hbn⟩
    exact ihne b hb hbn

/-- C5 counterexample: on an instance whose clause repeats the literal `a`
with the same polarity, `inspect` keeps both copies, so the output does not
contain exactly one representative literal per distinct variable name. -/
theorem inspect_duplicate_counterexample :
    SatInstance.inspect ⟨[⟨Operator.OR, [⟨false, "a"⟩, ⟨false, "a"⟩]⟩]⟩ =
      [⟨false, "a"⟩, ⟨false, "a"⟩] ∧
    ¬ ((SatInstance.inspect ⟨[⟨Operator.OR, [⟨false, "a"⟩, ⟨false, "a"⟩]⟩]⟩).map
        Literal.name).Nodup := by
  constructor
  · decide
  · decide

/-- C5 (amended): `inspect` flattens, sorts and dedups adjacent inverse
pairs; the names in its output, deduplicated ignoring polarity, are exactly
the variable names of the instance, and the output is sorted; when no
literal (name and polarity) occurs twice in the flattened instance, the
output has exactly one representative per distinct variable name. -/
theorem inspect_characterization (i : SatInstance) :
    (∀ n : String,
      n ∈ (i.inspect).map Literal.name ↔
        n ∈ (i.clauses.flatMap (fun c => c.literals)).map Literal.name) ∧
    (i.inspect).Pairwise (fun x y => x.le y = true) ∧
    ((i.clauses.flatMap (fun c => c.literals)).Nodup →
      ((i.inspect).map Literal.name).Nodup) := by
  simp only [SatInstance.inspect]
  have hperm := sortLiterals_perm (i.clauses.flatMap (fun c => c.literals))
  have hpair := sortLiterals_pairwise (i.clauses.flatMap (fun c => c.literals))
  refine ⟨?_, ?_, ?_⟩
  · intro n
    constructor
    · intro hmem
      rcases List.mem_map.mp hmem with ⟨b, hb, rfl⟩
      have hb' : b ∈ sortLiterals (i.clauses.flatMap (fun c => c.literals)) :=
        (dedupBy_sublist _ _).subset hb
      exact List.mem_map.mpr ⟨b, hperm.subset hb', rfl⟩
    · intro hmem
      rcases List.mem_map.mp hmem with ⟨a, ha, rfl⟩
      have ha' : a ∈ sortLiterals (i.clauses.flatMap (fun c => c.literals)) :=
        hperm.mem_iff.mpr ha
      rcases dedupBy_name_covers _ a ha' with ⟨b, hb, hbn⟩
      exact List.mem_map.mpr ⟨b, hb, hbn⟩
  · exact List.Pairwise.sublist (dedupBy_sublist _ _) hpair
  · intro hnodup
    exact dedupBy_nodup_names _ hpair (hperm.nodup_iff.mpr hnodup)

theorem inspect_characterization_witness :
    ((SatInstance.inspect ⟨[⟨Operator.OR, [⟨false, "b"⟩, ⟨false, "a"⟩]⟩]⟩).map
      Literal.name).Nodup :=
  (inspect_characterization ⟨[⟨Operator.OR, [⟨false, "b"⟩, ⟨false, "a"⟩]⟩]⟩).2.2 (by decide)
